import Mathlib

/-!
Verification development for the RARE-VISION temporal mAP evaluator
(`src/main.py`): segment tIoU, greedy AP matching, per-video and overall
mAP aggregation, and the prediction sanity check.
-/

namespace RareVision

/-- A temporal segment with inclusive integer bounds, mirroring the
`{"start": ..., "end": ...}` dictionaries of the program. -/
structure Segment where
  start : Int
  «end» : Int
deriving DecidableEq, Repr

/-- `tiou` from `src/main.py`: temporal intersection-over-union of two
inclusive integer segments, `0.0` when the union is non-positive. -/
def tiou (a b : Segment) : ℚ :=
  let inter : Int := max 0 (min a.«end» b.«end» - max a.start b.start + 1)
  let union : Int := (a.«end» - a.start + 1) + (b.«end» - b.start + 1) - inter
  if union > 0 then (inter : ℚ) / (union : ℚ) else 0

example : tiou ⟨0, 10⟩ ⟨0, 10⟩ = 1 := by norm_num [tiou]
example : tiou ⟨20, 25⟩ ⟨0, 10⟩ = 0 := by norm_num [tiou]
example : tiou ⟨0, 4⟩ ⟨3, 6⟩ = 2 / 7 := by norm_num [tiou]

/-- One annotated event: an inclusive temporal interval together with a
list of label strings, mirroring `{"start", "end", "label"}`. -/
structure Event where
  start : Int
  «end» : Int
  label : List String
deriving DecidableEq, Repr

/-- One video: an identifier and its ordered list of events. -/
structure Video where
  video_id : String
  events : List Event
deriving DecidableEq, Repr

/-- A top-level annotation document: the list under the `"videos"` key. -/
structure Document where
  videos : List Video
deriving DecidableEq, Repr

/-- `ALLOWED_LABELS` from `src/main.py`, in source order. -/
def ALLOWED_LABELS : List String :=
  [ "mouth", "esophagus", "stomach", "small intestine", "colon", "z-line",
    "pylorus", "ileocecal valve", "active bleeding", "angiectasia", "blood",
    "erosion", "erythema", "hematin", "lymphangioectasis", "polyp", "ulcer" ]

/-- The segment list `extract_by_video_label(data)[vid][lbl]` of
`src/main.py`: for each video entry whose id is `vid`, for each event, for
each occurrence of `lbl` in the event's label list, one `{start, end}`
segment, in iteration order.  Videos or labels never appended to are the
empty list (the `defaultdict` / `.get(lbl, [])` behaviour). -/
def segsOf (d : Document) (vid lbl : String) : List Segment :=
  (d.videos.filter (fun v => v.video_id = vid)).flatMap (fun v =>
    v.events.flatMap (fun e =>
      e.label.filterMap (fun l =>
        if l = lbl then some ⟨e.start, e.«end»⟩ else none)))

/-- The keys of `extract_by_video_label(d)`: a `defaultdict` key is created
exactly when `out[vid][lbl].append` runs, i.e. when some video entry with
that id has an event with a non-empty label list.  Each id appears once. -/
def keysOf (d : Document) : List String :=
  ((d.videos.filter (fun v =>
      v.events.any (fun e => !e.label.isEmpty))).map Video.video_id).dedup

/-- The inner loop of `average_precision`: scan `gt` from index `k`
upwards, skipping indices in `matched`, and return the first index whose
segment has `tiou p g ≥ thr`, if any. -/
def firstMatchFrom (p : Segment) (thr : ℚ) (matched : List ℕ) :
    List Segment → ℕ → Option ℕ
  | [], _ => none
  | g :: rest, k =>
    if k ∈ matched then firstMatchFrom p thr matched rest (k + 1)
    else if thr ≤ tiou p g then some k
    else firstMatchFrom p thr matched rest (k + 1)

/-- The outer matching loop of `average_precision`: for each prediction in
order, the ground-truth index it claims (`matched.add(i)` in the source) or
`none` when it is a false positive.  `matched` is the set of indices
claimed so far. -/
def assignPreds (gt : List Segment) (thr : ℚ) :
    List Segment → List ℕ → List (Option ℕ)
  | [], _ => []
  | p :: ps, matched =>
    match firstMatchFrom p thr matched gt 0 with
    | some i => some i :: assignPreds gt thr ps (i :: matched)
    | none => none :: assignPreds gt thr ps matched

/-- The `tp` hit list built by `average_precision`: `1` for a matched
prediction, `0` for a false positive, in prediction order. -/
def hits (gt pr : List Segment) (thr : ℚ) : List ℕ :=
  (assignPreds gt thr pr []).map (fun o => if o.isSome then 1 else 0)

/-- The accumulation loop of `average_precision`: walk the hit list with
running position `idx`, cumulative true positives `cum`, previous recall
`prevR` and accumulated `ap`; at each step `r = cum₂/nGt`,
`p = cum₂/(idx+1)`, `ap += p * (r - prevR)`. -/
def apLoop (nGt : ℕ) : List ℕ → ℕ → ℕ → ℚ → ℚ → ℚ
  | [], _, _, _, ap => ap
  | v :: rest, idx, cum, prevR, ap =>
    let cum2 := cum + v
    let r : ℚ := (cum2 : ℚ) / (nGt : ℚ)
    let p : ℚ := (cum2 : ℚ) / ((idx : ℚ) + 1)
    apLoop nGt rest (idx + 1) cum2 r (ap + p * (r - prevR))

/-- `average_precision` from `src/main.py`: greedy first-come matching at
threshold `thr`, the empty-ground-truth edge case, then the discrete
precision-recall accumulation. -/
def average_precision (gt_segs pr_segs : List Segment) (thr : ℚ) : ℚ :=
  if gt_segs = [] then (if pr_segs = [] then 1 else 0)
  else apLoop gt_segs.length (hits gt_segs pr_segs thr) 0 0 0 0

/-- The per-label AP list built for one video inside `compute_video_maps`:
one `average_precision` call per label of `ALLOWED_LABELS`. -/
def videoLabelAPs (gt pr : Document) (thr : ℚ) (vid : String) : List ℚ :=
  ALLOWED_LABELS.map (fun lbl =>
    average_precision (segsOf gt vid lbl) (segsOf pr vid lbl) thr)

/-- `compute_video_maps` from `src/main.py`: for each key of the
ground-truth index, the mean over `ALLOWED_LABELS` of the per-label APs. -/
def compute_video_maps (gt pr : Document) (thr : ℚ) : List (String × ℚ) :=
  (keysOf gt).map (fun vid =>
    let aps := videoLabelAPs gt pr thr vid
    (vid, aps.sum / (aps.length : ℚ)))

/-- The overall average computed at module level in `src/main.py`
(`avg_05` / `avg_095`): the mean of the per-video mAPs, `0.0` when the map
is empty. -/
def overall_map (gt pr : Document) (thr : ℚ) : ℚ :=
  let m := compute_video_maps gt pr thr
  if m = [] then 0 else (m.map Prod.snd).sum / (m.length : ℚ)

/-- Structured content of the diagnostic message returned by
`sanity_check`: the video-id mismatch message with its missing and extra
sets, the first-invalid-label message with the label and its video, or the
`"All checks passed"` message. -/
inductive CheckMsg
  | mismatch (missing extra : Finset String)
  | invalidLabel (lbl vid : String)
  | allPassed
deriving DecidableEq

/-- Video-id set of a document (`{v["video_id"] for v in d["videos"]}`). -/
def vidSet (d : Document) : Finset String :=
  (d.videos.map Video.video_id).toFinset

/-- The label scan of `sanity_check`: the first `(label, video_id)` pair,
in video/event/label iteration order, whose label is not allowed. -/
def firstInvalid (pred : Document) : Option (String × String) :=
  pred.videos.findSome? (fun v =>
    v.events.findSome? (fun e =>
      e.label.findSome? (fun l =>
        if l ∈ ALLOWED_LABELS then none else some (l, v.video_id))))

/-- `sanity_check` from `src/main.py`: video-id set equality first, then
the fail-fast label scan over the prediction document. -/
def sanity_check (gt pred : Document) : Bool × CheckMsg :=
  if vidSet gt ≠ vidSet pred then
    (false, .mismatch (vidSet gt \ vidSet pred) (vidSet pred \ vidSet gt))
  else
    match firstInvalid pred with
    | some (l, vid) => (false, .invalidLabel l vid)
    | none => (true, .allPassed)

/-- The flattened `(label, video_id)` occurrences of a prediction
document, in the video/event/label iteration order of `sanity_check`. -/
def labelOccurrences (pred : Document) : List (String × String) :=
  pred.videos.flatMap (fun v =>
    v.events.flatMap (fun e => e.label.map (fun l => (l, v.video_id))))

/-- Per-video mAP as a standalone function of the video id: the mean over
`ALLOWED_LABELS` of the per-label APs (the value stored by
`compute_video_maps` for each of its keys). -/
def videoMAP (gt pr : Document) (thr : ℚ) (vid : String) : ℚ :=
  (videoLabelAPs gt pr thr vid).sum / ((videoLabelAPs gt pr thr vid).length : ℚ)

/-- Ground-truth indices claimed by the predictions at positions `< k` of
an assignment list (the contents of the `matched` set when the `k`-th
prediction is processed, starting from an empty set). -/
def assignedBefore (asg : List (Option ℕ)) (k : ℕ) : List ℕ :=
  (asg.take k).filterMap id

/-- What the greedy matching rule of `average_precision` promises for one
prediction `p` given the already-claimed index list `claimed`: a `some i`
assignment claims an unclaimed index whose segment reaches the threshold
while every earlier unclaimed index falls short of it (first-come, in
original ground-truth order); a `none` assignment means no unclaimed
index reaches the threshold. -/
def IsFirstMatch (gt : List Segment) (thr : ℚ) (claimed : List ℕ)
    (p : Segment) : Option ℕ → Prop
  | some i => i ∉ claimed ∧ (∃ g, gt[i]? = some g ∧ thr ≤ tiou p g) ∧
      ∀ j g, j < i → gt[j]? = some g → j ∉ claimed → tiou p g < thr
  | none => ∀ j g, gt[j]? = some g → j ∉ claimed → tiou p g < thr

lemma label_scan_eq_find (vid : String) (labels : List String) :
    labels.findSome? (fun l =>
        if l ∈ ALLOWED_LABELS then none else some (l, vid)) =
      (labels.map (fun l => (l, vid))).find?
        (fun q => !(decide (q.1 ∈ ALLOWED_LABELS))) := by
  induction labels with
  | nil => simp
  | cons l t ih =>
    by_cases h : l ∈ ALLOWED_LABELS
    · simpa [h] using ih
    · simp [h]

/-- The fail-fast label scan of `sanity_check` is the first element, in
flattened occurrence order, whose label is outside the vocabulary. -/
lemma firstInvalid_eq_find (pred : Document) :
    firstInvalid pred =
      (labelOccurrences pred).find?
        (fun q => !(decide (q.1 ∈ ALLOWED_LABELS))) := by
  unfold firstInvalid labelOccurrences
  rw [List.find?_flatMap]
  have h1 : ∀ v : Video,
      (v.events.flatMap (fun e => e.label.map (fun l => (l, v.video_id)))).find?
          (fun q => !(decide (q.1 ∈ ALLOWED_LABELS))) =
        v.events.findSome? (fun e =>
          e.label.findSome? (fun l =>
            if l ∈ ALLOWED_LABELS then none else some (l, v.video_id))) := by
    intro v
    rw [List.find?_flatMap]
    have h2 : (fun e : Event =>
        (e.label.map (fun l => (l, v.video_id))).find?
          (fun q => !(decide (q.1 ∈ ALLOWED_LABELS)))) =
        (fun e : Event =>
          e.label.findSome? (fun l =>
            if l ∈ ALLOWED_LABELS then none else some (l, v.video_id))) := by
      funext e
      exact (label_scan_eq_find v.video_id e.label).symm
    rw [h2]
  have h3 : (fun v : Video =>
      (v.events.flatMap (fun e => e.label.map (fun l => (l, v.video_id)))).find?
        (fun q => !(decide (q.1 ∈ ALLOWED_LABELS)))) =
      (fun v : Video =>
        v.events.findSome? (fun e =>
          e.label.findSome? (fun l =>
            if l ∈ ALLOWED_LABELS then none else some (l, v.video_id)))) := by
    funext v
    exact h1 v
  rw [h3]

lemma firstMatchFrom_some_lt (p : Segment) (thr : ℚ) (matched : List ℕ) :
    ∀ (gts : List Segment) (k i : ℕ),
      firstMatchFrom p thr matched gts k = some i →
      k ≤ i ∧ i < k + gts.length ∧ i ∉ matched := by
  intro gts
  induction gts with
  | nil => intro k i h; simp [firstMatchFrom] at h
  | cons g rest ih =>
    intro k i h
    simp only [firstMatchFrom] at h
    by_cases hk : k ∈ matched
    · rw [if_pos hk] at h
      obtain ⟨h1, h2, h3⟩ := ih (k + 1) i h
      refine ⟨by omega, ?_, h3⟩
      simp only [List.length_cons]
      omega
    · rw [if_neg hk] at h
      by_cases ht : thr ≤ tiou p g
      · rw [if_pos ht] at h
        have hik : k = i := by simpa using h
        subst hik
        refine ⟨le_refl k, ?_, hk⟩
        simp only [List.length_cons]
        omega
      · rw [if_neg ht] at h
        obtain ⟨h1, h2, h3⟩ := ih (k + 1) i h
        refine ⟨by omega, ?_, h3⟩
        simp only [List.length_cons]
        omega

lemma assignPreds_claimed (gt : List Segment) (thr : ℚ) :
    ∀ (pr : List Segment) (matched : List ℕ),
      ((assignPreds gt thr pr matched).filterMap id).Nodup ∧
      ∀ i ∈ (assignPreds gt thr pr matched).filterMap id,
        i < gt.length ∧ i ∉ matched := by
  intro pr
  induction pr with
  | nil => intro matched; simp [assignPreds]
  | cons p ps ih =>
    intro matched
    simp only [assignPreds]
    cases hfm : firstMatchFrom p thr matched gt 0 with
    | none =>
      simpa using ih matched
    | some i =>
      obtain ⟨-, hlt, hnm⟩ := firstMatchFrom_some_lt p thr matched gt 0 i hfm
      obtain ⟨ihnd, ihmem⟩ := ih (i :: matched)
      simp only [List.filterMap_cons, id] at ihnd ihmem ⊢
      constructor
      · refine List.Nodup.cons ?_ ihnd
        intro hmem
        exact (ihmem i hmem).2 (List.mem_cons_self i matched)
      · intro j hj
        rcases List.mem_cons.1 hj with hj | hj
        · subst hj
          exact ⟨by simpa using hlt, hnm⟩
        · obtain ⟨hj1, hj2⟩ := ihmem j hj
          exact ⟨hj1, fun hc => hj2 (List.mem_cons_of_mem i hc)⟩

lemma sum_indicator_eq_length_filterMap (l : List (Option ℕ)) :
    (l.map (fun o => if o.isSome then 1 else 0)).sum = (l.filterMap id).length := by
  induction l with
  | nil => simp
  | cons o t ih => cases o <;> simp [ih, Nat.add_comm]

lemma length_le_of_nodup_lt (l : List ℕ) (n : ℕ) (hnd : l.Nodup)
    (hlt : ∀ i ∈ l, i < n) : l.length ≤ n := by
  have h1 : l.toFinset.card = l.length := List.toFinset_card_of_nodup hnd
  have h2 : l.toFinset ⊆ Finset.range n := by
    intro i hi
    rw [Finset.mem_range]
    exact hlt i (List.mem_toFinset.1 hi)
  have h3 := Finset.card_le_card h2
  rw [h1, Finset.card_range] at h3
  exact h3

lemma sum_hits_le (gt pr : List Segment) (thr : ℚ) :
    (hits gt pr thr).sum ≤ gt.length := by
  rw [hits, sum_indicator_eq_length_filterMap]
  exact length_le_of_nodup_lt _ _ (assignPreds_claimed gt thr pr []).1
    (fun i hi => ((assignPreds_claimed gt thr pr []).2 i hi).1)

lemma apLoop_bounds (nGt : ℕ) (hn : 0 < nGt) :
    ∀ (tps : List ℕ) (idx cum : ℕ) (ap : ℚ),
      (∀ v ∈ tps, v ≤ 1) → cum ≤ idx → cum + tps.sum ≤ nGt →
      ap ≤ apLoop nGt tps idx cum ((cum : ℚ) / (nGt : ℚ)) ap ∧
        apLoop nGt tps idx cum ((cum : ℚ) / (nGt : ℚ)) ap ≤
          ap + 1 - (cum : ℚ) / (nGt : ℚ) := by
  have hnq : (0 : ℚ) < (nGt : ℚ) := by exact_mod_cast hn
  intro tps
  induction tps with
  | nil =>
    intro idx cum ap _ _ hsum
    simp only [apLoop]
    refine ⟨le_refl ap, ?_⟩
    have hc : (cum : ℚ) / (nGt : ℚ) ≤ 1 := by
      rw [div_le_one hnq]
      exact_mod_cast (by omega : cum ≤ nGt)
    linarith
  | cons v rest ih =>
    intro idx cum ap hle hci hsum
    have hv1 : v ≤ 1 := hle v (List.mem_cons_self v rest)
    have hsum' : (cum + v) + rest.sum ≤ nGt := by
      have : v + rest.sum = (v :: rest).sum := by simp
      omega
    have hstep := ih (idx + 1) (cum + v)
      (ap + ((cum + v : ℕ) : ℚ) / ((idx : ℚ) + 1) *
        (((cum + v : ℕ) : ℚ) / (nGt : ℚ) - (cum : ℚ) / (nGt : ℚ)))
      (fun v' hv' => hle v' (List.mem_cons_of_mem v hv'))
      (by omega) hsum'
    have hcle : (cum : ℚ) ≤ ((cum + v : ℕ) : ℚ) := by
      exact_mod_cast (by omega : cum ≤ cum + v)
    have hΔ : (0 : ℚ) ≤ ((cum + v : ℕ) : ℚ) / (nGt : ℚ) - (cum : ℚ) / (nGt : ℚ) := by
      rw [div_sub_div_same]
      exact div_nonneg (by linarith) (le_of_lt hnq)
    have hp0 : (0 : ℚ) ≤ ((cum + v : ℕ) : ℚ) / ((idx : ℚ) + 1) := by
      apply div_nonneg
      · positivity
      · positivity
    have hp1 : ((cum + v : ℕ) : ℚ) / ((idx : ℚ) + 1) ≤ 1 := by
      rw [div_le_one (by positivity)]
      push_cast
      exact_mod_cast (by omega : cum + v ≤ idx + 1)
    have hprod0 : (0 : ℚ) ≤ ((cum + v : ℕ) : ℚ) / ((idx : ℚ) + 1) *
        (((cum + v : ℕ) : ℚ) / (nGt : ℚ) - (cum : ℚ) / (nGt : ℚ)) :=
      mul_nonneg hp0 hΔ
    have hprodΔ : ((cum + v : ℕ) : ℚ) / ((idx : ℚ) + 1) *
        (((cum + v : ℕ) : ℚ) / (nGt : ℚ) - (cum : ℚ) / (nGt : ℚ)) ≤
        ((cum + v : ℕ) : ℚ) / (nGt : ℚ) - (cum : ℚ) / (nGt : ℚ) :=
      mul_le_of_le_one_left hΔ hp1
    simp only [apLoop]
    constructor
    · linarith [hstep.1]
    · linarith [hstep.2]

lemma firstMatchFrom_some_spec (p : Segment) (thr : ℚ) (matched : List ℕ) :
    ∀ (gts : List Segment) (k i : ℕ),
      firstMatchFrom p thr matched gts k = some i →
      ∃ j, i = k + j ∧ i ∉ matched ∧
        (∃ g, gts[j]? = some g ∧ thr ≤ tiou p g) ∧
        ∀ j' g, j' < j → gts[j']? = some g → (k + j') ∉ matched →
          tiou p g < thr := by
  intro gts
  induction gts with
  | nil => intro k i h; simp [firstMatchFrom] at h
  | cons g rest ih =>
    intro k i h
    simp only [firstMatchFrom] at h
    by_cases hk : k ∈ matched
    · rw [if_pos hk] at h
      obtain ⟨j, hij, hnm, hg, hbefore⟩ := ih (k + 1) i h
      refine ⟨j + 1, by omega, hnm, by simpa using hg, ?_⟩
      intro j' g' hj' hget hnm'
      cases j' with
      | zero => exact absurd (by simpa using hnm') (by simpa using hk)
      | succ j'' =>
        refine hbefore j'' g' (by omega) (by simpa using hget) ?_
        simpa [Nat.add_comm, Nat.add_assoc, Nat.add_left_comm] using hnm'
    · rw [if_neg hk] at h
      by_cases ht : thr ≤ tiou p g
      · rw [if_pos ht] at h
        have hik : k = i := by simpa using h
        subst hik
        exact ⟨0, by omega, hk, ⟨g, by simp, ht⟩, fun j' g' hj' _ _ => by omega⟩
      · rw [if_neg ht] at h
        obtain ⟨j, hij, hnm, hg, hbefore⟩ := ih (k + 1) i h
        refine ⟨j + 1, by omega, hnm, by simpa using hg, ?_⟩
        intro j' g' hj' hget hnm'
        cases j' with
        | zero =>
          have hx : g = g' := by simpa using hget
          rw [← hx]
          exact lt_of_not_le ht
        | succ j'' =>
          refine hbefore j'' g' (by omega) (by simpa using hget) ?_
          simpa [Nat.add_comm, Nat.add_assoc, Nat.add_left_comm] using hnm'

lemma firstMatchFrom_none_spec (p : Segment) (thr : ℚ) (matched : List ℕ) :
    ∀ (gts : List Segment) (k : ℕ),
      firstMatchFrom p thr matched gts k = none →
      ∀ j g, gts[j]? = some g → (k + j) ∉ matched → tiou p g < thr := by
  intro gts
  induction gts with
  | nil => intro k _ j g hget; simp at hget
  | cons g0 rest ih =>
    intro k h j g hget hnm
    simp only [firstMatchFrom] at h
    by_cases hk : k ∈ matched
    · rw [if_pos hk] at h
      cases j with
      | zero => exact absurd (by simpa using hnm) (by simpa using hk)
      | succ j' =>
        refine ih (k + 1) h j' g (by simpa using hget) ?_
        simpa [Nat.add_comm, Nat.add_assoc, Nat.add_left_comm] using hnm
    · rw [if_neg hk] at h
      by_cases ht : thr ≤ tiou p g0
      · rw [if_pos ht] at h
        exact absurd h (by simp)
      · rw [if_neg ht] at h
        cases j with
        | zero =>
          have hx : g0 = g := by simpa using hget
          rw [← hx]
          exact lt_of_not_le ht
        | succ j' =>
          refine ih (k + 1) h j' g (by simpa using hget) ?_
          simpa [Nat.add_comm, Nat.add_assoc, Nat.add_left_comm] using hnm

lemma isFirstMatch_congr (gt : List Segment) (thr : ℚ) (p : Segment)
    (M₁ M₂ : List ℕ) (hmm : ∀ x, x ∈ M₁ ↔ x ∈ M₂) (o : Option ℕ) :
    IsFirstMatch gt thr M₁ p o → IsFirstMatch gt thr M₂ p o := by
  cases o with
  | none =>
    intro h j g hget hnm
    exact h j g hget (fun hc => hnm ((hmm j).1 hc))
  | some i =>
    rintro ⟨h1, h2, h3⟩
    exact ⟨fun hc => h1 ((hmm i).2 hc), h2,
      fun j g hj hget hnm => h3 j g hj hget (fun hc => hnm ((hmm j).1 hc))⟩

lemma length_assignPreds (gt : List Segment) (thr : ℚ) :
    ∀ (pr : List Segment) (matched : List ℕ),
      (assignPreds gt thr pr matched).length = pr.length := by
  intro pr
  induction pr with
  | nil => intro matched; simp [assignPreds]
  | cons p ps ih =>
    intro matched
    simp only [assignPreds]
    cases hfm : firstMatchFrom p thr matched gt 0 <;>
      simp [List.length_cons, ih]

lemma assignPreds_cons_some {gt : List Segment} {thr : ℚ} {p : Segment}
    {ps : List Segment} {matched : List ℕ} {i : ℕ}
    (h : firstMatchFrom p thr matched gt 0 = some i) :
    assignPreds gt thr (p :: ps) matched =
      some i :: assignPreds gt thr ps (i :: matched) := by
  simp only [assignPreds, h]

lemma assignPreds_cons_none {gt : List Segment} {thr : ℚ} {p : Segment}
    {ps : List Segment} {matched : List ℕ}
    (h : firstMatchFrom p thr matched gt 0 = none) :
    assignPreds gt thr (p :: ps) matched =
      none :: assignPreds gt thr ps matched := by
  simp only [assignPreds, h]

lemma assignPreds_isFirstMatch (gt : List Segment) (thr : ℚ) :
    ∀ (pr : List Segment) (matched : List ℕ) (k : ℕ) (p : Segment)
      (o : Option ℕ),
      pr[k]? = some p →
      (assignPreds gt thr pr matched)[k]? = some o →
      IsFirstMatch gt thr
        (assignedBefore (assignPreds gt thr pr matched) k ++ matched) p o := by
  intro pr
  induction pr with
  | nil => intro matched k p o hp; simp at hp
  | cons p' ps ih =>
    intro matched k p o hp ho
    cases hfm : firstMatchFrom p' thr matched gt 0 with
    | some i =>
      rw [assignPreds_cons_some hfm] at ho ⊢
      cases k with
      | zero =>
        have hpp : p = p' := by simpa using hp.symm
        subst hpp
        have hoo : o = some i := by simpa using ho.symm
        subst hoo
        obtain ⟨j, hij, hnm, hg, hbefore⟩ :=
          firstMatchFrom_some_spec p thr matched gt 0 i hfm
        have hji : j = i := by omega
        subst hji
        refine isFirstMatch_congr gt thr p matched _ (by simp [assignedBefore]) _ ?_
        exact ⟨hnm, hg, fun j' g hj' hget hnm' => by
          simpa using hbefore j' g hj' hget (by simpa using hnm')⟩
      | succ k' =>
        have hp' : ps[k']? = some p := by simpa using hp
        have ho' : (assignPreds gt thr ps (i :: matched))[k']? = some o := by
          simpa using ho
        have := ih (i :: matched) k' p o hp' ho'
        refine isFirstMatch_congr gt thr p _ _ ?_ o this
        intro x
        simp only [assignedBefore, List.take_succ_cons, List.filterMap_cons,
          List.mem_append, List.mem_cons, id]
        tauto
    | none =>
      rw [assignPreds_cons_none hfm] at ho ⊢
      cases k with
      | zero =>
        have hpp : p = p' := by simpa using hp.symm
        subst hpp
        have hoo : o = none := by simpa using ho.symm
        subst hoo
        refine isFirstMatch_congr gt thr p matched _ (by simp [assignedBefore]) _ ?_
        intro j g hget hnm
        simpa using firstMatchFrom_none_spec p thr matched gt 0 hfm j g hget
          (by simpa using hnm)
      | succ k' =>
        have hp' : ps[k']? = some p := by simpa using hp
        have ho' : (assignPreds gt thr ps matched)[k']? = some o := by
          simpa using ho
        have := ih matched k' p o hp' ho'
        refine isFirstMatch_congr gt thr p _ _ ?_ o this
        intro x
        simp only [assignedBefore, List.take_succ_cons, List.filterMap_cons,
          List.mem_append, id]

lemma mem_assignedBefore_of_getElem (asg : List (Option ℕ)) (k₁ k₂ i : ℕ)
    (hlt : k₁ < k₂) (h : asg[k₁]? = some (some i)) :
    i ∈ assignedBefore asg k₂ := by
  have hmem : some i ∈ asg.take k₂ := by
    have : (asg.take k₂)[k₁]? = some (some i) := by
      rw [List.getElem?_take_of_lt hlt]
      exact h
    exact List.getElem?_mem this
  exact List.mem_filterMap.2 ⟨some i, hmem, rfl⟩

/-- A two-video ground truth in which the second video has no events, so
it never becomes a key of the ground-truth segment index. -/
def gtTwoVideos : Document :=
  ⟨[⟨"v1", [⟨0, 10, ["polyp"]⟩]⟩, ⟨"v2", []⟩]⟩

/-- Predictions for `gtTwoVideos`: a perfect match on `"v1"` and one
spurious `"polyp"` segment on `"v2"`. -/
def prTwoVideos : Document :=
  ⟨[⟨"v1", [⟨0, 10, ["polyp"]⟩]⟩, ⟨"v2", [⟨0, 5, ["polyp"]⟩]⟩]⟩

/-- A video id is a key of the ground-truth segment index exactly when
some label has a non-empty segment list for it. -/
lemma mem_keysOf (d : Document) (vid : String) :
    vid ∈ keysOf d ↔ ∃ lbl, segsOf d vid lbl ≠ [] := by
  constructor
  · intro h
    rw [keysOf, List.mem_dedup, List.mem_map] at h
    obtain ⟨v, hv, hvid⟩ := h
    rw [List.mem_filter] at hv
    obtain ⟨hvmem, hvP⟩ := hv
    rw [List.any_eq_true] at hvP
    obtain ⟨e, he, hne⟩ := hvP
    cases hl : e.label with
    | nil => rw [hl] at hne; simp at hne
    | cons l rest =>
      refine ⟨l, ?_⟩
      rw [segsOf]
      intro hcontra
      rw [List.flatMap_eq_nil_iff] at hcontra
      have hvfil : v ∈ d.videos.filter (fun v' => v'.video_id = vid) := by
        rw [List.mem_filter]
        exact ⟨hvmem, by simp [hvid]⟩
      have h2 := hcontra v hvfil
      rw [List.flatMap_eq_nil_iff] at h2
      have h3 := h2 e he
      rw [hl] at h3
      simp at h3
  · rintro ⟨lbl, hne⟩
    rw [segsOf] at hne
    have h1 : ∃ v ∈ d.videos.filter (fun v' => v'.video_id = vid),
        (v.events.flatMap fun e => e.label.filterMap fun l =>
          if l = lbl then some (⟨e.start, e.«end»⟩ : Segment) else none) ≠ [] := by
      by_contra hall
      push_neg at hall
      exact hne (List.flatMap_eq_nil_iff.2 hall)
    obtain ⟨v, hv, hv2⟩ := h1
    have h2 : ∃ e ∈ v.events, (e.label.filterMap fun l =>
        if l = lbl then some (⟨e.start, e.«end»⟩ : Segment) else none) ≠ [] := by
      by_contra hall
      push_neg at hall
      exact hv2 (List.flatMap_eq_nil_iff.2 hall)
    obtain ⟨e, he, he2⟩ := h2
    rw [List.mem_filter] at hv
    rw [keysOf, List.mem_dedup, List.mem_map]
    refine ⟨v, ?_, by simpa using hv.2⟩
    rw [List.mem_filter]
    refine ⟨hv.1, ?_⟩
    rw [List.any_eq_true]
    refine ⟨e, he, ?_⟩
    cases hl : e.label with
    | nil => rw [hl] at he2; simp at he2
    | cons => simp

section Claims

/-- C1, counterexample: the claim bundles the correct listed set with
cardinality 18, but `ALLOWED_LABELS` has 17 distinct strings, so the
conjunction is false. -/
theorem allowed_labels_not_card_18 :
    ¬ (ALLOWED_LABELS.toFinset =
        ({"mouth", "esophagus", "stomach", "small intestine", "colon",
          "z-line", "pylorus", "ileocecal valve", "active bleeding",
          "angiectasia", "blood", "erosion", "erythema", "hematin",
          "lymphangioectasis", "polyp", "ulcer"} : Finset String) ∧
       ALLOWED_LABELS.toFinset.card = 18) := by
  decide

/-- C1, amended: the fixed label vocabulary is exactly the listed closed
set, and it has 17 elements, not 18. -/
theorem allowed_labels_card_17 :
    ALLOWED_LABELS.toFinset =
      ({"mouth", "esophagus", "stomach", "small intestine", "colon",
        "z-line", "pylorus", "ileocecal valve", "active bleeding",
        "angiectasia", "blood", "erosion", "erythema", "hematin",
        "lymphangioectasis", "polyp", "ulcer"} : Finset String) ∧
      ALLOWED_LABELS.toFinset.card = 17 := by
  constructor
  · decide
  · decide

/-- C2, counterexample: the overall mAP is not the mean of per-video mAPs
over all videos listed in the ground-truth document: `"v2"` has no events,
so it is missing from the segment index and is skipped, and the overall
value `1` differs from the two-video mean `33/34`. -/
theorem overall_map_not_mean_over_document_videos :
    overall_map gtTwoVideos prTwoVideos (1/2) ≠
      ((gtTwoVideos.videos.map
        (fun v => videoMAP gtTwoVideos prTwoVideos (1/2) v.video_id)).sum) /
        ((gtTwoVideos.videos.length : ℚ)) := by
  have hL : overall_map gtTwoVideos prTwoVideos (1/2) = 1 := by
    simp [overall_map, compute_video_maps, keysOf, gtTwoVideos, prTwoVideos,
      videoLabelAPs, ALLOWED_LABELS, segsOf, average_precision, hits,
      assignPreds, firstMatchFrom, tiou]
    norm_num [apLoop]
  have hR : ((gtTwoVideos.videos.map
      (fun v => videoMAP gtTwoVideos prTwoVideos (1/2) v.video_id)).sum) /
        ((gtTwoVideos.videos.length : ℚ)) = 33/34 := by
    simp [videoMAP, gtTwoVideos, prTwoVideos, videoLabelAPs, ALLOWED_LABELS,
      segsOf, average_precision, hits, assignPreds, firstMatchFrom, tiou]
    norm_num [apLoop]
  rw [hL, hR]
  norm_num

/-- C2, amended: the per-video mAP of each indexed video is the mean over
the full label vocabulary of the per-label APs (absent labels contributing
the empty-ground-truth AP through empty segment lists), and the overall
mAP is the mean of the per-video mAPs over the videos present in the
ground-truth segment index — a ground-truth video with no labeled events
is absent from the index and excluded from that mean. -/
theorem compute_video_maps_spec (gt pr : Document) (thr : ℚ) :
    ((compute_video_maps gt pr thr).map Prod.fst = keysOf gt) ∧
    (∀ vid, vid ∈ keysOf gt ↔ ∃ lbl, segsOf gt vid lbl ≠ []) ∧
    (∀ vid mv, (vid, mv) ∈ compute_video_maps gt pr thr →
      mv = (ALLOWED_LABELS.map (fun lbl =>
        average_precision (segsOf gt vid lbl) (segsOf pr vid lbl) thr)).sum /
        ((ALLOWED_LABELS.length : ℚ))) ∧
    (compute_video_maps gt pr thr ≠ [] →
      overall_map gt pr thr =
        ((compute_video_maps gt pr thr).map Prod.snd).sum /
          (((compute_video_maps gt pr thr).length : ℚ))) := by
  refine ⟨?_, fun vid => mem_keysOf gt vid, ?_, ?_⟩
  · simp [compute_video_maps, List.map_map, Function.comp_def]
  · intro vid mv hmem
    rw [compute_video_maps] at hmem
    obtain ⟨vid', hvid', heq⟩ := List.mem_map.1 hmem
    have h1 : vid' = vid := congrArg Prod.fst heq
    have h2 : (videoLabelAPs gt pr thr vid').sum /
        ((videoLabelAPs gt pr thr vid').length : ℚ) = mv := congrArg Prod.snd heq
    subst h1
    rw [← h2, videoLabelAPs, List.length_map]
  · intro hne
    rw [overall_map]
    simp only [if_neg hne]

/-- C2 witness: the amended per-video rule evaluated on the concrete
two-video example; the overall mean runs over the one indexed video. -/
theorem compute_video_maps_spec_witness :
    overall_map gtTwoVideos prTwoVideos (1/2) =
      ((compute_video_maps gtTwoVideos prTwoVideos (1/2)).map Prod.snd).sum /
        (((compute_video_maps gtTwoVideos prTwoVideos (1/2)).length : ℚ)) := by
  refine (compute_video_maps_spec gtTwoVideos prTwoVideos (1/2)).2.2.2 ?_
  simp [compute_video_maps, keysOf, gtTwoVideos]

/-- C3: the matching loop of `average_precision` processes predictions in
order; each prediction claims the first ground-truth index, in original
order, that is unclaimed and reaches the threshold, and is a false
positive when no such index exists; claimed indices are one-to-one across
predictions; and the `tp` hit list is the indicator of these claims. -/
theorem average_precision_greedy_matching (gt_segs pr_segs : List Segment)
    (thr : ℚ) :
    (assignPreds gt_segs thr pr_segs []).length = pr_segs.length ∧
    (∀ k p o, pr_segs[k]? = some p →
      (assignPreds gt_segs thr pr_segs [])[k]? = some o →
      IsFirstMatch gt_segs thr
        (assignedBefore (assignPreds gt_segs thr pr_segs []) k) p o) ∧
    (∀ (k₁ k₂ i : ℕ),
      (assignPreds gt_segs thr pr_segs [])[k₁]? = some (some i) →
      (assignPreds gt_segs thr pr_segs [])[k₂]? = some (some i) →
      k₁ = k₂) ∧
    hits gt_segs pr_segs thr =
      (assignPreds gt_segs thr pr_segs []).map
        (fun o => if o.isSome then 1 else 0) := by
  have hspec : ∀ k p o, pr_segs[k]? = some p →
      (assignPreds gt_segs thr pr_segs [])[k]? = some o →
      IsFirstMatch gt_segs thr
        (assignedBefore (assignPreds gt_segs thr pr_segs []) k) p o := by
    intro k p o hp ho
    have := assignPreds_isFirstMatch gt_segs thr pr_segs [] k p o hp ho
    simpa using this
  refine ⟨length_assignPreds gt_segs thr pr_segs [], hspec, ?_, rfl⟩
  have key : ∀ (k₁ k₂ i : ℕ), k₁ < k₂ →
      (assignPreds gt_segs thr pr_segs [])[k₁]? = some (some i) →
      (assignPreds gt_segs thr pr_segs [])[k₂]? = some (some i) → False := by
    intro k₁ k₂ i hlt h1 h2
    have hk₂len : k₂ < (assignPreds gt_segs thr pr_segs []).length := by
      by_contra hge
      rw [List.getElem?_eq_none (Nat.le_of_not_lt hge)] at h2
      simp at h2
    have hk₂pr : k₂ < pr_segs.length := by
      rw [← length_assignPreds gt_segs thr pr_segs []]
      exact hk₂len
    have hp : pr_segs[k₂]? = some pr_segs[k₂] := List.getElem?_eq_getElem hk₂pr
    have hfm := assignPreds_isFirstMatch gt_segs thr pr_segs [] k₂
      pr_segs[k₂] (some i) hp h2
    have hmem : i ∈ assignedBefore (assignPreds gt_segs thr pr_segs []) k₂ :=
      mem_assignedBefore_of_getElem _ k₁ k₂ i hlt h1
    exact hfm.1 (List.mem_append.2 (Or.inl hmem))
  intro k₁ k₂ i h1 h2
  rcases Nat.lt_trichotomy k₁ k₂ with h | h | h
  · exact absurd (key k₁ k₂ i h h1 h2) not_false
  · exact h
  · exact absurd (key k₂ k₁ i h h2 h1) not_false

/-- C3 witness: on a concrete instance the second prediction claims the
first (index `0`) ground-truth segment, which the first prediction left
unclaimed, and the characterization holds at that step. -/
theorem average_precision_greedy_matching_witness :
    IsFirstMatch [⟨0, 10⟩, ⟨20, 25⟩] (1/2)
      (assignedBefore
        (assignPreds [⟨0, 10⟩, ⟨20, 25⟩] (1/2) [⟨21, 25⟩, ⟨0, 10⟩] []) 1)
      ⟨0, 10⟩ (some 0) := by
  refine (average_precision_greedy_matching [⟨0, 10⟩, ⟨20, 25⟩]
      [⟨21, 25⟩, ⟨0, 10⟩] (1/2)).2.1 1 ⟨0, 10⟩ (some 0) rfl ?_
  norm_num [assignPreds, firstMatchFrom, tiou]

/-- C4: with empty ground truth, `average_precision` returns `1.0` when
the predictions are also empty and `0.0` when they are non-empty. -/
theorem average_precision_empty_gt (pr_segs : List Segment) (thr : ℚ)
    (h : pr_segs ≠ []) :
    average_precision [] [] thr = 1 ∧ average_precision [] pr_segs thr = 0 := by
  refine ⟨by simp [average_precision], ?_⟩
  simp [average_precision, h]

/-- C4 witness: the edge case evaluated at a concrete non-empty
prediction list. -/
theorem average_precision_empty_gt_witness :
    average_precision [] [] (1/2) = 1 ∧
      average_precision [] [⟨0, 5⟩] (1/2) = 0 :=
  average_precision_empty_gt [⟨0, 5⟩] (1/2) (by simp)

/-- C5: `tiou` computes the inclusive-bound intersection and union and
returns their ratio, with `0.0` whenever the union is not positive, so it
is total. -/
theorem tiou_formula (a b : Segment) :
    tiou a b =
      if (a.«end» - a.start + 1) + (b.«end» - b.start + 1)
          - max 0 (min a.«end» b.«end» - max a.start b.start + 1) > 0 then
        ((max 0 (min a.«end» b.«end» - max a.start b.start + 1) : Int) : ℚ) /
          (((a.«end» - a.start + 1) + (b.«end» - b.start + 1)
            - max 0 (min a.«end» b.«end» - max a.start b.start + 1) : Int) : ℚ)
      else 0 :=
  rfl

/-- C8: on `gt = [(0,10)]`, `pr = [(0,10), (20,25)]`, `thr = 0.5`, the hit
sequence is `[1, 0]` and the AP is exactly `1`: the trailing false
positive does not lower AP once recall has saturated. -/
theorem ap_tp_then_fp_example :
    hits [⟨0, 10⟩] [⟨0, 10⟩, ⟨20, 25⟩] (1/2) = [1, 0] ∧
      average_precision [⟨0, 10⟩] [⟨0, 10⟩, ⟨20, 25⟩] (1/2) = 1 := by
  constructor
  · norm_num [hits, assignPreds, firstMatchFrom, tiou]
  · norm_num [average_precision, hits, assignPreds, firstMatchFrom, tiou, apLoop]

/-- C10: when the ground-truth segment index is empty (no key is ever
created), `compute_video_maps` is empty and the overall mAP is reported
as `0` through the emptiness guard. -/
theorem overall_map_empty_index (gt pr : Document) (thr : ℚ)
    (h : keysOf gt = []) :
    compute_video_maps gt pr thr = [] ∧ overall_map gt pr thr = 0 := by
  constructor
  · simp [compute_video_maps, h]
  · simp [overall_map, compute_video_maps, h]

/-- C10 witness: a ground-truth document with an empty video list yields
an empty map and overall mAP `0`. -/
theorem overall_map_empty_index_witness :
    compute_video_maps ⟨[]⟩ ⟨[]⟩ (1/2) = [] ∧
      overall_map ⟨[]⟩ ⟨[]⟩ (1/2) = 0 :=
  overall_map_empty_index ⟨[]⟩ ⟨[]⟩ (1/2) (by simp [keysOf])

/-- C6: for valid segments and a threshold in `[0,1]`,
`average_precision` returns a value in `[0,1]`. -/
theorem average_precision_mem_unit_interval (gt_segs pr_segs : List Segment)
    (thr : ℚ) (_hgt : ∀ s ∈ gt_segs, s.start ≤ s.«end»)
    (_hpr : ∀ s ∈ pr_segs, s.start ≤ s.«end»)
    (_h0 : 0 ≤ thr) (_h1 : thr ≤ 1) :
    0 ≤ average_precision gt_segs pr_segs thr ∧
      average_precision gt_segs pr_segs thr ≤ 1 := by
  unfold average_precision
  by_cases hg : gt_segs = []
  · rw [if_pos hg]
    by_cases hp : pr_segs = []
    · rw [if_pos hp]
      norm_num
    · rw [if_neg hp]
      norm_num
  · rw [if_neg hg]
    have hn : 0 < gt_segs.length := List.length_pos.2 hg
    have hhle : ∀ v ∈ hits gt_segs pr_segs thr, v ≤ 1 := by
      intro v hv
      rw [hits] at hv
      obtain ⟨o, -, rfl⟩ := List.mem_map.1 hv
      cases o <;> simp
    have hsum : 0 + (hits gt_segs pr_segs thr).sum ≤ gt_segs.length := by
      simpa using sum_hits_le gt_segs pr_segs thr
    have hb := apLoop_bounds gt_segs.length hn (hits gt_segs pr_segs thr)
      0 0 0 hhle (le_refl 0) hsum
    simpa using hb

/-- C6 witness: a concrete valid instance evaluated inside `[0,1]`. -/
theorem average_precision_mem_unit_interval_witness :
    0 ≤ average_precision [⟨0, 10⟩] [⟨2, 8⟩] (1/2) ∧
      average_precision [⟨0, 10⟩] [⟨2, 8⟩] (1/2) ≤ 1 :=
  average_precision_mem_unit_interval [⟨0, 10⟩] [⟨2, 8⟩] (1/2)
    (by decide) (by decide) (by norm_num) (by norm_num)

/-- C7: `sanity_check` passes exactly when the prediction video-id set
equals the ground-truth one and every prediction label is allowed; on an
id mismatch the diagnostic carries the missing and extra id sets; with
matching ids an invalid-label diagnostic names exactly the first
offending `(label, video)` occurrence in scan order (fail-fast). -/
theorem sanity_check_spec (gt pred : Document) :
    ((sanity_check gt pred).1 = true ↔
      vidSet gt = vidSet pred ∧
        ∀ q ∈ labelOccurrences pred, q.1 ∈ ALLOWED_LABELS) ∧
    (vidSet gt ≠ vidSet pred →
      sanity_check gt pred =
        (false, .mismatch (vidSet gt \ vidSet pred)
          (vidSet pred \ vidSet gt))) ∧
    (vidSet gt = vidSet pred →
      ∀ l vid, sanity_check gt pred = (false, .invalidLabel l vid) ↔
        (labelOccurrences pred).find?
          (fun q => !(decide (q.1 ∈ ALLOWED_LABELS))) = some (l, vid)) := by
  by_cases hid : vidSet gt = vidSet pred
  · have hif : ¬ (vidSet gt ≠ vidSet pred) := by simp [hid]
    cases hfi : firstInvalid pred with
    | none =>
      have hpass : sanity_check gt pred = (true, .allPassed) := by
        simp [sanity_check, hif, hfi]
      have hall : ∀ q ∈ labelOccurrences pred, q.1 ∈ ALLOWED_LABELS := by
        intro q hq
        have := List.find?_eq_none.1 (firstInvalid_eq_find pred ▸ hfi) q hq
        simpa using this
      refine ⟨⟨fun _ => ⟨hid, hall⟩, fun _ => by rw [hpass]⟩,
        fun h => absurd hid h, ?_⟩
      intro _ l vid
      rw [hpass, ← firstInvalid_eq_find, hfi]
      simp
    | some q =>
      obtain ⟨l₀, vid₀⟩ := q
      have hfail : sanity_check gt pred = (false, .invalidLabel l₀ vid₀) := by
        simp [sanity_check, hif, hfi]
      have hbad : l₀ ∉ ALLOWED_LABELS := by
        have := List.find?_some (firstInvalid_eq_find pred ▸ hfi)
        simpa using this
      have hmem : (l₀, vid₀) ∈ labelOccurrences pred :=
        List.mem_of_find?_eq_some (firstInvalid_eq_find pred ▸ hfi)
      constructor
      · rw [hfail]
        simp only [Bool.false_eq_true, false_iff]
        intro h
        exact hbad (h.2 (l₀, vid₀) hmem)
      constructor
      · intro h
        exact absurd hid h
      · intro _ l vid
        rw [hfail, ← firstInvalid_eq_find, hfi]
        constructor
        · intro h
          have h2 : l₀ = l ∧ vid₀ = vid := by
            have := congrArg Prod.snd h
            simpa [CheckMsg.invalidLabel.injEq] using this
          rw [h2.1, h2.2]
        · intro h
          have h2 : l₀ = l ∧ vid₀ = vid := by simpa using h
          rw [h2.1, h2.2]
  · have hfail : sanity_check gt pred =
        (false, .mismatch (vidSet gt \ vidSet pred)
          (vidSet pred \ vidSet gt)) := by
      simp [sanity_check, hid]
    refine ⟨?_, fun _ => hfail, fun h => absurd h hid⟩
    rw [hfail]
    simp only [Bool.false_eq_true, false_iff]
    intro h
    exact hid h.1

/-- C7 witness: a concrete video-id mismatch yields the mismatch
diagnostic with the missing and extra sets. -/
theorem sanity_check_spec_witness :
    sanity_check (⟨[⟨"v1", []⟩]⟩ : Document) (⟨[⟨"v2", []⟩]⟩ : Document) =
      (false, .mismatch {"v1"} {"v2"}) := by
  have h := (sanity_check_spec ⟨[⟨"v1", []⟩]⟩ ⟨[⟨"v2", []⟩]⟩).2.1 (by decide)
  rw [h]
  decide

/-- C9: `sanity_check` never inspects ground-truth labels: whenever the
video-id sets agree and every prediction label is allowed, the check
passes, with no condition on the labels of the ground-truth document. -/
theorem sanity_check_ignores_gt_labels (gt pred : Document)
    (hids : vidSet gt = vidSet pred)
    (hlabels : ∀ q ∈ labelOccurrences pred, q.1 ∈ ALLOWED_LABELS) :
    sanity_check gt pred = (true, .allPassed) := by
  have hfi : firstInvalid pred = none := by
    rw [firstInvalid_eq_find]
    refine List.find?_eq_none.2 ?_
    intro q hq
    simpa using hlabels q hq
  simp [sanity_check, hids, hfi]

/-- C9 witness: a ground truth carrying the out-of-vocabulary label
`"banana"` still passes validation against a clean prediction. -/
theorem sanity_check_ignores_gt_labels_witness :
    sanity_check (⟨[⟨"v1", [⟨0, 3, ["banana"]⟩]⟩]⟩ : Document)
        (⟨[⟨"v1", [⟨0, 3, ["polyp"]⟩]⟩]⟩ : Document) = (true, .allPassed) :=
  sanity_check_ignores_gt_labels _ _ (by decide) (by decide)

end Claims

end RareVision
